import Mathlib

/-!
Verification of the slsa log-structure analyzer (src/tools/slsa.c).

The C program is shallowly embedded: C strings become `List Char`
(a read past the terminator is modelled with the NUL default of `cAt`),
`struct wordinfo` becomes `Wordinfo`, and `struct logrec_node` becomes the
inductive `Node`, where the C `child` pointer plus the `sibling` chain of
that child are represented as the list `children` (head = `child`, tail =
the successive siblings).  The `parent` back-pointer is a non-owning
reference used by the C only while restructuring; where the C dereferences
a pointer that can be NULL, the embedding returns `none`.

The liblognorm syntax recognizers (`syntax_posint`, `ln_parseTime24hr`,
`ln_parseDuration`, `syntax_ipv4`, `ln_parseRFC3164Date`,
`ln_parseRFC5424Date`) are declared in headers outside this repository's
`src/`; they are modelled from the spec where needed and marked as such.
-/

/-- One value of a tree slot: literal text, occurrence counter and the two
flags of `struct wordflags` (`isSubword`, `isSpecial`). -/
structure Wordinfo where
  word : List Char
  occurs : Nat
  isSubword : Bool
  isSpecial : Bool
deriving DecidableEq, Repr

/-- Placeholder `Wordinfo` used where the C reads `words[0]` of a node; a
live node always has a non-empty value set, so the default is never the
value actually reached by the algorithms on well-formed trees. -/
def wiDefault : Wordinfo := ⟨[], 1, false, false⟩

/-- `struct logrec_node`: value set `words`, terminal counter `nterm`, and
`children` = the C `child` pointer followed by that child's sibling chain. -/
inductive Node : Type where
  | mk (words : List Wordinfo) (nterm : Nat) (children : List Node)

def Node.words : Node → List Wordinfo
  | .mk ws _ _ => ws

def Node.nterm : Node → Nat
  | .mk _ nt _ => nt

def Node.children : Node → List Node
  | .mk _ _ cs => cs

/-- Character of a C string at index `j`: the byte there, or NUL once `j`
is past the end (C reads the terminator). -/
def cAt (w : List Char) (j : Nat) : Char := w.getD j (Char.ofNat 0)

/-- Sum of the occurrence counters of a value set. -/
def sumOccurs (ws : List Wordinfo) : Nat := (ws.map Wordinfo.occurs).sum

mutual

/-- Total of `nterm` over a whole subtree. -/
def totalNterm : Node → Nat
  | .mk _ nt cs => nt + totalNtermList cs

/-- Total of `nterm` over a chain of subtrees. -/
def totalNtermList : List Node → Nat
  | [] => 0
  | n :: rest => totalNterm n + totalNtermList rest

end

mutual

/-- Number of nodes of a subtree (the node itself included). -/
def countNodes : Node → Nat
  | .mk _ _ cs => 1 + countNodesList cs

/-- Number of nodes of a chain of subtrees. -/
def countNodesList : List Node → Nat
  | [] => 0
  | n :: rest => countNodes n + countNodesList rest

end

/-- Byte-wise lexicographic strict order, the order `strcmp` induces in
`qs_compmi` (all texts handled here are ASCII, where byte order and
codepoint order agree). -/
def strcmpLt : List Char → List Char → Bool
  | [], [] => false
  | [], _ :: _ => true
  | _ :: _, [] => false
  | a :: as, b :: bs => if a < b then true else if b < a then false else strcmpLt as bs

/-- Insertion step of the sort replacing `qsort(..., qs_compmi)`.  `qsort`
leaves the relative order of equal keys unspecified; this deterministic
sort keeps earlier entries of an equal-text run first, one of the
behaviours the C permits. -/
def insertWi (x : Wordinfo) : List Wordinfo → List Wordinfo
  | [] => [x]
  | y :: ys => if strcmpLt y.word x.word then y :: insertWi x ys else x :: y :: ys

/-- Sort of a value set by literal text (`qsort` with `qs_compmi`). -/
def sortWis : List Wordinfo → List Wordinfo
  | [] => []
  | x :: xs => insertWi x (sortWis xs)

/-- The merge loop of `squashDuplicateValues` (slsa.c:288-301), translated
slot for slot: `ws` is the sorted array, `iPrev`/`iNext`/`ns` the loop
state, and the first argument counts the remaining iterations
(`iNext` runs up to `nwords - 1`).  A duplicate is "deleted" by leaving
its slot behind (the C frees the object but keeps the dangling slot);
on a new word after a gap the survivor's counter grows by the positional
gap `iNext - iPrev - 1` and the new word is moved down to `iPrev + 1`. -/
def sdvGo : Nat → List Wordinfo → Nat → Nat → Nat → List Wordinfo × Nat
  | 0, ws, _, _, ns => (ws, ns)
  | k + 1, ws, iPrev, iNext, ns =>
    if (ws.getD iPrev wiDefault).word == (ws.getD iNext wiDefault).word then
      sdvGo k ws iPrev (iNext + 1) (ns + 1)
    else if iPrev + 1 == iNext then
      sdvGo k ws iNext (iNext + 1) ns
    else
      let ws1 := ws.modify (fun w => ⟨w.word, w.occurs + (iNext - iPrev - 1), w.isSubword, w.isSpecial⟩) iPrev
      let ws2 := ws1.set (iPrev + 1) (ws1.getD iNext wiDefault)
      sdvGo k ws2 (iPrev + 1) (iNext + 1) ns

/-- `squashDuplicateValues` (slsa.c:278-307): sort the value set, run the
merge loop, and drop the `nsquashed` dead slots at the end of the array
(the final `realloc`). -/
def squashDuplicateValues (node : Node) : Node :=
  if node.words.length == 1 then node
  else
    let sorted := sortWis node.words
    let r := sdvGo (sorted.length - 1) sorted 0 1 0
    Node.mk (r.1.take (sorted.length - r.2)) node.nterm node.children

/-- C-locale `isdigit`. -/
def cIsDigit (c : Char) : Bool := Char.ofNat 48 ≤ c && c ≤ Char.ofNat 57

/-- C-locale `isspace`: space, tab, newline, vertical tab, form feed,
carriage return. -/
def cIsSpace (c : Char) : Bool :=
  c == Char.ofNat 32 || c == Char.ofNat 9 || c == Char.ofNat 10 ||
  c == Char.ofNat 11 || c == Char.ofNat 12 || c == Char.ofNat 13

/-- Numeric value of a digit run. -/
def digitsToNat (ds : List Char) : Nat := ds.foldl (fun a c => a * 10 + (c.toNat - 48)) 0

/-- Modelled from the spec: `syntax_posint` (declared in syntaxes.h, not
under src/) recognizes a positive integer; it consumes the maximal leading
digit run and matches when that run is non-empty, reporting the consumed
length. -/
def syntax_posint (w : List Char) : Option Nat :=
  let n := (w.takeWhile cIsDigit).length
  if n == 0 then none else some n

/-- Modelled from the spec: `ln_parseTime24hr` (a liblognorm parser, not
under src/) recognizes a 24-hour time of day `hh:mm:ss` with a two-digit
hour 00-23 and two-digit minutes/seconds 00-59, consuming 8 characters. -/
def ln_parseTime24hr (w : List Char) : Option Nat :=
  if cIsDigit (cAt w 0) && cIsDigit (cAt w 1) && cAt w 2 == Char.ofNat 58 &&
     cIsDigit (cAt w 3) && cIsDigit (cAt w 4) && cAt w 5 == Char.ofNat 58 &&
     cIsDigit (cAt w 6) && cIsDigit (cAt w 7) &&
     digitsToNat [cAt w 0, cAt w 1] ≤ 23 &&
     digitsToNat [cAt w 3, cAt w 4] ≤ 59 && digitsToNat [cAt w 6, cAt w 7] ≤ 59
  then some 8 else none

/-- Modelled from the spec: `ln_parseDuration` (a liblognorm parser, not
under src/) recognizes a duration `h...h:mm:ss` whose hour field is any
non-empty digit run (unbounded, typically starting with a single digit). -/
def ln_parseDuration (w : List Char) : Option Nat :=
  let hs := (w.takeWhile cIsDigit).length
  if hs == 0 then none
  else
    let r := w.drop hs
    if cAt r 0 == Char.ofNat 58 && cIsDigit (cAt r 1) && cIsDigit (cAt r 2) &&
       cAt r 3 == Char.ofNat 58 && cIsDigit (cAt r 4) && cIsDigit (cAt r 5) &&
       digitsToNat [cAt r 1, cAt r 2] ≤ 59 && digitsToNat [cAt r 4, cAt r 5] ≤ 59
    then some (hs + 6) else none

/-- Length of one dotted-quad octet at the head of `w`: a digit run of
length 1-3 with value at most 255.  Helper of the IPv4 model. -/
def parseOctetLen (w : List Char) : Option Nat :=
  let ds := w.takeWhile cIsDigit
  if ds.length == 0 || 3 < ds.length then none
  else if digitsToNat ds ≤ 255 then some ds.length else none

/-- Modelled from the spec: `syntax_ipv4` (declared in syntaxes.h, not
under src/) recognizes a dotted-quad IPv4 address and reports how many
characters it consumed (a partial match of the word is allowed). -/
def syntax_ipv4 (w : List Char) : Option Nat :=
  match parseOctetLen w with
  | none => none
  | some l1 =>
    if cAt w l1 == Char.ofNat 46 then
      match parseOctetLen (w.drop (l1 + 1)) with
      | none => none
      | some l2 =>
        if cAt w (l1 + 1 + l2) == Char.ofNat 46 then
          match parseOctetLen (w.drop (l1 + 1 + l2 + 1)) with
          | none => none
          | some l3 =>
            if cAt w (l1 + 1 + l2 + 1 + l3) == Char.ofNat 46 then
              match parseOctetLen (w.drop (l1 + 1 + l2 + 1 + l3 + 1)) with
              | none => none
              | some l4 => some (l1 + 1 + l2 + 1 + l3 + 1 + l4)
            else none
        else none
    else none

/-- A recognizer result is a full match of a word of length `len` when it
matched and consumed exactly `len` characters (the `... && nproc == wordlen`
tests of `wordDetectSyntax`). -/
def fullMatch (r : Option Nat) (len : Nat) : Bool :=
  match r with
  | some n => n == len
  | none => false

/-- Canonical placeholder texts. -/
def pctPosint : List Char := "%posint%".data

def pctTime24hr : List Char := "%time-24hr%".data

def pctDuration : List Char := "%duration%".data

def pctIpv4 : List Char := "%ipv4%".data

/-- The `/` literal pushed by the stacked IPv4 decomposition
(`wordinfoNew("/")` with `isSubword` set). -/
def wiSlash : Wordinfo := ⟨[Char.ofNat 47], 1, true, false⟩

/-- The `%posint%` token pushed by the stacked IPv4 decomposition
(`isSubword` and `isSpecial` set). -/
def wiPosintStacked : Wordinfo := ⟨pctPosint, 1, true, true⟩

/-- `wordDetectSyntax` (slsa.c:576-640): try the recognizers in order
posint, 24-hour time, duration, IPv4 — first full match rewrites the word
to its placeholder and sets `isSpecial`.  A partial IPv4 match followed by
`/` and a full positive integer, tried only when `bDetectStacked` is set,
rewrites to `%ipv4%` (also `isSubword`) and yields the pending tokens
`%posint%` then `/` in push order (second component). -/
def wordDetectSyntax (wi : Wordinfo) (wordlen : Nat) (bDetectStacked : Bool) :
    Wordinfo × List Wordinfo :=
  if fullMatch (syntax_posint wi.word) wordlen then
    (⟨pctPosint, wi.occurs, wi.isSubword, true⟩, [])
  else if fullMatch (ln_parseTime24hr wi.word) wordlen then
    (⟨pctTime24hr, wi.occurs, wi.isSubword, true⟩, [])
  else if fullMatch (ln_parseDuration wi.word) wordlen then
    (⟨pctDuration, wi.occurs, wi.isSubword, true⟩, [])
  else
    match syntax_ipv4 wi.word with
    | none => (wi, [])
    | some nproc =>
      if nproc == wordlen then (⟨pctIpv4, wi.occurs, wi.isSubword, true⟩, [])
      else if bDetectStacked && cAt wi.word nproc == Char.ofNat 47 then
        match syntax_posint (wi.word.drop (nproc + 1)) with
        | none => (wi, [])
        | some m =>
          if nproc + 1 + m == wordlen then
            (⟨pctIpv4, wi.occurs, true, true⟩, [wiPosintStacked, wiSlash])
          else (wi, [])
      else (wi, [])

/-- Tokenizer state: the pending-token stack (`wordStack`, top first) and
the rest of the line. -/
structure TokState where
  stack : List Wordinfo
  line : List Char
deriving DecidableEq

/-- Number of leading whitespace characters (first loop of `getWord`). -/
def skipSpacesLen (ln : List Char) : Nat := (ln.takeWhile cIsSpace).length

/-- Length of the whitespace-delimited word after the leading spaces
(second loop of `getWord`). -/
def wordLenAt (ln : List Char) : Nat :=
  ((ln.drop (skipSpacesLen ln)).takeWhile (fun c => !cIsSpace c)).length

/-- `getWord` (slsa.c:642-671): drain the pending stack first; on an empty
or all-spaces line return no token (the C leaves the line pointer where it
was in both cases); otherwise cut the next whitespace-delimited word,
skip detection when it already starts with `%`, and otherwise run
top-level detection with the stacked path enabled, pushing any pending
tokens (push order reversed onto the stack, top = last pushed). -/
def getWord : TokState → Option Wordinfo × TokState
  | ⟨wi :: rest, line⟩ => (some wi, ⟨rest, line⟩)
  | ⟨[], line⟩ =>
    if line == [] then (none, ⟨[], line⟩)
    else
      let i0 := skipSpacesLen line
      let wlen := wordLenAt line
      if wlen == 0 then (none, ⟨[], line⟩)
      else
        let w := (line.drop i0).take wlen
        let lineRest := (line.drop i0).drop wlen
        if cAt w 0 == Char.ofNat 37 then (some ⟨w, 1, false, false⟩, ⟨[], lineRest⟩)
        else
          let dp := wordDetectSyntax ⟨w, 1, false, false⟩ wlen true
          (some dp.1, ⟨dp.2.reverse, lineRest⟩)

/-- Token stream of a line, by iterating `getWord` to exhaustion.  The C
interleaves this with tree insertion; tokenization does not depend on the
tree, so the stream is computed up front.  The fuel `3*|line| + |stack| + 1`
strictly dominates the number of `getWord` calls that can return a token:
a pop shrinks the stack by one, and reading a word consumes at least one
line character while pushing at most two pending tokens. -/
def tokenizeFuel : Nat → TokState → List Wordinfo
  | 0, _ => []
  | fuel + 1, s =>
    match getWord s with
    | (none, _) => []
    | (some wi, s') => wi :: tokenizeFuel fuel s'

/-- Token stream of a tokenizer state (see `tokenizeFuel`). -/
def tokenize (s : TokState) : List Wordinfo :=
  tokenizeFuel (3 * s.line.length + s.stack.length + 1) s

/-- `logrec_hasWord` (slsa.c:235-247): first value of the node whose text
equals `w`, if any. -/
def logrec_hasWord (node : Node) (w : List Char) : Option Wordinfo :=
  node.words.find? (fun wi => wi.word == w)

/-- Increment the occurrence counter of the first value whose text equals
`w` (the `wi_val->occurs++` of `treeAddToLevel`). -/
def bumpFirst : List Wordinfo → List Char → List Wordinfo
  | [], _ => []
  | wi :: ws, w =>
    if wi.word == w then ⟨wi.word, wi.occurs + 1, wi.isSubword, wi.isSpecial⟩ :: ws
    else wi :: bumpFirst ws w

/-- Node with the occurrence bump of `bumpFirst` applied to its values. -/
def bumpWord (n : Node) (w : List Char) : Node :=
  Node.mk (bumpFirst n.words w) n.nterm n.children

/-- `logrec_addWord` (slsa.c:191-209) applied to a node: append the value
to the set, its counter reset to 1. -/
def addWordNode (n : Node) (wi : Wordinfo) : Node :=
  Node.mk (n.words ++ [⟨wi.word, 1, wi.isSubword, wi.isSpecial⟩]) n.nterm n.children

/-- `logrec_newNode` (slsa.c:211-220): fresh node holding only `wi`
(counter reset to 1 by `logrec_addWord`), no terminal hits, no child. -/
def newNode (wi : Wordinfo) : Node :=
  Node.mk [⟨wi.word, 1, wi.isSubword, wi.isSpecial⟩] 0 []

/-- Split a sibling chain at its first node satisfying `p`: nodes before,
the hit, nodes after.  This captures the `for(existing = level->child ...)`
scans of `treeAddToLevel`, whose `prev` pointer amounts to remembering the
prefix of the chain already passed. -/
def findSplit (p : Node → Bool) : List Node → Option (List Node × Node × List Node)
  | [] => none
  | c :: rest =>
    if p c then some ([], c, rest)
    else
      match findSplit p rest with
      | some (pre, t, post) => some (c :: pre, t, post)
      | none => none

/-- The lookahead test of `treeAddToLevel` (slsa.c:695-698): the node has a
child and the first value of that child has the lookahead's text. -/
def lookaheadHit (la : Wordinfo) (c : Node) : Bool :=
  match c.children with
  | [] => false
  | cc :: _ => (cc.words.headD wiDefault).word == la.word

/-- `treeAddToLevel` (slsa.c:673-718) on the child chain of the current
node, returned as the chain split around the node descended into: phase 1
reuses the first node already holding the token's text (counter bumped);
phase 2, only with a known lookahead, appends the token as a further value
of the first node whose child starts with the lookahead's text; phase 3
appends a fresh node at the end of the chain. -/
def treeAddToLevel (children : List Node) (wi : Wordinfo) (nextwi : Option Wordinfo) :
    List Node × Node × List Node :=
  match findSplit (fun c => (logrec_hasWord c wi.word).isSome) children with
  | some (pre, c, post) => (pre, bumpWord c wi.word, post)
  | none =>
    match nextwi with
    | some la =>
      match findSplit (lookaheadHit la) children with
      | some (pre, c, post) => (pre, addWordNode c wi, post)
      | none => (children, newNode wi, [])
    | none => (children, newNode wi, [])

/-- The insertion loop of `treeAddLine` (slsa.c:720-736): walk the token
list with one-token lookahead (`rest.head?`), descend into the node
`treeAddToLevel` selected, and bump `nterm` of the node where the tokens
ran out. -/
def insertTokens : Node → List Wordinfo → Node
  | node, [] => Node.mk node.words (node.nterm + 1) node.children
  | node, wi :: rest =>
    match treeAddToLevel node.children wi rest.head? with
    | (pre, t, post) => Node.mk node.words node.nterm (pre ++ insertTokens t rest :: post)

/-- The root sentinel built in `main` (slsa.c:837). -/
def root0 : Node := Node.mk [⟨"[ROOT]".data, 1, false, false⟩] 0 []

/-- `treeAddLine`: tokenize the line (empty pending stack) and insert. -/
def treeAddLine (t : Node) (line : List Char) : Node :=
  insertTokens t (tokenize ⟨[], line⟩)

/-- Tree obtained by feeding the lines to `treeAddLine` in order, starting
from the fresh root. -/
def buildTree (lines : List (List Char)) : Node :=
  lines.foldl treeAddLine root0

/-- The prefix scan of `checkPrefixes` (slsa.c:428-431): starting at
index `j` with `k` indices left before the current prefix bound, advance
while the word agrees with the base word, and report where the loop
stopped. -/
def scanPrefLoop (w base : List Char) : Nat → Nat → Nat
  | 0, j => j
  | k + 1, j => if cAt w j == cAt base j then scanPrefLoop w base k (j + 1) else j

/-- The suffix scan of `checkPrefixes` (slsa.c:439-443): count matching
characters from the ends of the word (length `lenW`) and the base word
(length `lenBase`), at most `k` of them, starting at offset `j`. -/
def scanSufLoop (w : List Char) (lenW : Nat) (base : List Char) (lenBase : Nat) :
    Nat → Nat → Nat
  | 0, j => j
  | k + 1, j =>
    if cAt w (lenW - j - 1) == cAt base (lenBase - j - 1) then
      scanSufLoop w lenW base lenBase k (j + 1)
    else j

/-- The `for(i = 1 ; i < node->nwords ; ++i)` loop of `checkPrefixes`
(slsa.c:424-447): shrink the tentative common prefix and suffix lengths
against each further value. -/
def prefSufFold : List Wordinfo → List Char → Nat → Nat × Nat → Nat × Nat
  | [], _, _, ps => ps
  | w :: ws, base, lenBase, (p, s) =>
    let p' :=
      if 0 < p then
        let j := scanPrefLoop w.word base p 0
        if j < p then j else p
      else p
    let s' :=
      if 0 < s then
        let lenW := w.word.length
        let jmax := if lenW < s then lenW else s
        let j := scanSufLoop w.word lenW base lenBase jmax 0
        if j < s then j else s
      else s
    prefSufFold ws base lenBase (p', s')

/-- Search loop of `findMatchingTerm` (slsa.c:394-398): the least offset
`i` below the current suffix bound (the second argument counts the
remaining offsets) with `word[lenWord-i-1] = term`, reported as the new
suffix length `i+1`. -/
def fmtScan (word : List Char) (lenWord : Nat) (term : Char) : Nat → Nat → Option Nat
  | 0, _ => none
  | k + 1, i =>
    if cAt word (lenWord - i - 1) == term then some (i + 1)
    else fmtScan word lenWord term k (i + 1)

/-- `findMatchingTerm` (slsa.c:385-405): look for the terminator inside the
current suffix window; on success the new `(lenPrefix, lenSuffix)` pair. -/
def findMatchingTerm (word : List Char) (lenWord : Nat) (potentialNewPref : Nat)
    (lenSuf : Nat) (term : Char) : Option (Nat × Nat) :=
  match fmtScan word lenWord term lenSuf 0 with
  | some newSuf => some (potentialNewPref, newSuf)
  | none => none

/-- The backward delimiter-correction scan of `checkPrefixes`
(slsa.c:451-485): the first argument is the number of positions still to
scan, so position `j = n - 1` is looked at next; `p`/`s` are the current
prefix and suffix lengths.  A quoting or bracketing character whose
matching terminator is found in the suffix window rewrites both lengths
and ends the scan (`goto done_prefixes`); `=` or `:` re-pins the prefix to
end just after it, and the scan continues (the `break` leaves only the
`switch`). -/
def scanDelims (base : List Char) (lenBase : Nat) : Nat → Nat → Nat → Nat × Nat
  | 0, p, s => (p, s)
  | j + 1, p, s =>
    let c := cAt base j
    if c == Char.ofNat 34 then
      match findMatchingTerm base lenBase (j + 1) s (Char.ofNat 34) with
      | some ps => ps
      | none => scanDelims base lenBase j p s
    else if c == Char.ofNat 39 then
      match findMatchingTerm base lenBase (j + 1) s (Char.ofNat 39) with
      | some ps => ps
      | none => scanDelims base lenBase j p s
    else if c == Char.ofNat 91 then
      match findMatchingTerm base lenBase (j + 1) s (Char.ofNat 93) with
      | some ps => ps
      | none => scanDelims base lenBase j p s
    else if c == Char.ofNat 40 then
      match findMatchingTerm base lenBase (j + 1) s (Char.ofNat 41) with
      | some ps => ps
      | none => scanDelims base lenBase j p s
    else if c == Char.ofNat 60 then
      match findMatchingTerm base lenBase (j + 1) s (Char.ofNat 62) with
      | some ps => ps
      | none => scanDelims base lenBase j p s
    else if c == Char.ofNat 61 || c == Char.ofNat 58 then
      scanDelims base lenBase j (j + 1) s
    else scanDelims base lenBase j p s

/-- Value with the first `p` characters removed (the `memmove` of the
prefix phase of `disjoinCommon`). -/
def stripPref (p : Nat) (w : Wordinfo) : Wordinfo :=
  ⟨w.word.drop p, w.occurs, w.isSubword, w.isSpecial⟩

/-- Value with its last `s` characters removed (the `word[iSuffix] = '\0'`
of the suffix phase of `disjoinCommon`). -/
def stripSuf (s : Nat) (w : Wordinfo) : Wordinfo :=
  ⟨w.word.take (w.word.length - s), w.occurs, w.isSubword, w.isSpecial⟩

/-- Suffix phase of `disjoinCommon` (slsa.c:352-370) on the node that now
owns the residual values: with a nonzero suffix length, cut the suffix
text from the (already prefix-stripped) first value, interpose a new child
holding it as a subword, and strip the suffix from every value.  The C
executes `newnode->child = node->child; newnode->child->parent = newnode;`
unconditionally, dereferencing NULL when the node has no child: that case
is `none`. -/
def disjoinSuffixStage (node1 : Node) (lenSuf : Nat) : Option Node :=
  if 0 < lenSuf then
    let wordCur := (node1.words.headD wiDefault).word
    let iSuffix := wordCur.length - lenSuf
    let newwi2 : Wordinfo := ⟨wordCur.drop iSuffix, 1, true, false⟩
    match node1.children with
    | [] => none
    | c :: cr =>
      some (Node.mk (node1.words.map (stripSuf lenSuf)) node1.nterm
        [Node.mk [newwi2] 0 (c :: cr)])
  else some node1

/-- Final loop of `disjoinCommon` (slsa.c:372-377): flag every residual
value as a subword, re-run non-stacked syntax detection on it, then squash
duplicates. -/
def disjoinDetect (node2 : Node) : Node :=
  squashDuplicateValues (Node.mk
    (node2.words.map (fun w =>
      (wordDetectSyntax (Wordinfo.mk w.word w.occurs true w.isSpecial) w.word.length false).1))
    node2.nterm node2.children)

/-- `disjoinCommon` (slsa.c:312-378).  The function reads `words[0]` at
entry, so an empty value set is undefined (`none`).  With a nonzero prefix
length the current node keeps a single subword value holding the prefix
(and its `nterm`), and a new inner node (fresh, `nterm` 0) takes the
values, each with the prefix stripped; the suffix phase, detection and
deduplication then run on that inner node. -/
def disjoinCommon (node : Node) (lenPref lenSuf : Nat) : Option Node :=
  match node.words with
  | [] => none
  | w0 :: _ =>
    if 0 < lenPref then
      let newwi : Wordinfo := ⟨w0.word.take lenPref, 1, true, false⟩
      let inner : Node := Node.mk (node.words.map (stripPref lenPref)) 0 node.children
      match disjoinSuffixStage inner lenSuf with
      | none => none
      | some inner2 => some (Node.mk [newwi] node.nterm [disjoinDetect inner2])
    else
      match disjoinSuffixStage node lenSuf with
      | none => none
      | some node2 => some (disjoinDetect node2)

/-- `checkPrefixes` (slsa.c:413-494): nothing to do on a single-valued
node or when the first value is already a subword; otherwise compute the
common prefix/suffix lengths of all values, run the backward delimiter
correction over the first value, and when either length is nonzero factor
with `disjoinCommon` (the `printPrefixes` call is pure output). -/
def checkPrefixes (node : Node) : Option Node :=
  if node.words.length == 1 || (node.words.headD wiDefault).isSubword then some node
  else
    let baseword := (node.words.headD wiDefault).word
    let lenBase := baseword.length
    let ps := prefSufFold (node.words.drop 1) baseword lenBase (lenBase, lenBase)
    let ps2 := scanDelims baseword lenBase ps.1 ps.1 ps.2
    if ps2.1 != 0 || ps2.2 != 0 then disjoinCommon node ps2.1 ps2.2 else some node

/-- The `while(node != NULL)` walk of `treeSquash` (slsa.c:500-528) over a
sibling chain.  `hasSib` is the flag the C computes once from the entry
node's sibling and keeps for the whole walk.  The collapse branch demands
`node->nwords == 0` and `node->child->nwords == 0` exactly as written
(the later `words[0]` reads, undefined in C for an empty value set, are
modelled with `wiDefault`); it splices the child out and retries the same
node.  Otherwise the node is factored with `checkPrefixes` (whose NULL
dereference propagates as `none`), its child chain squashed recursively,
and the walk moves to the sibling.  The C recursion terminates only
because factored nodes are never re-factored; the embedding makes the
descent explicit with fuel, `none` on exhaustion. -/
def squashWalk : Nat → Bool → List Node → Option (List Node)
  | 0, _, _ => none
  | _ + 1, _, [] => some []
  | fuel + 1, hasSib, n :: rest =>
    let collapse :=
      match n.children with
      | [c] =>
        !hasSib && n.words.length == 0 && c.words.length == 0 &&
        !(cAt (n.words.headD wiDefault).word 0 == Char.ofNat 37) &&
        !(cAt (c.words.headD wiDefault).word 0 == Char.ofNat 37)
      | _ => false
    match n.children with
    | [c] =>
      if collapse then
        let newword := (n.words.headD wiDefault).word ++ Char.ofNat 32 :: (c.words.headD wiDefault).word
        let ws' :=
          match n.words with
          | [] => []
          | w :: wrest => Wordinfo.mk newword w.occurs w.isSubword w.isSpecial :: wrest
        squashWalk fuel hasSib (Node.mk ws' c.nterm c.children :: rest)
      else
        match checkPrefixes n with
        | none => none
        | some n1 =>
          match
            (match n1.children with
             | [] => some []
             | cc :: ccr => squashWalk fuel (!ccr.isEmpty) (cc :: ccr)) with
          | none => none
          | some cs' =>
            match squashWalk fuel hasSib rest with
            | none => none
            | some rest' => some (Node.mk n1.words n1.nterm cs' :: rest')
    | _ =>
      match checkPrefixes n with
      | none => none
      | some n1 =>
        match
          (match n1.children with
           | [] => some []
           | cc :: ccr => squashWalk fuel (!ccr.isEmpty) (cc :: ccr)) with
        | none => none
        | some cs' =>
          match squashWalk fuel hasSib rest with
          | none => none
          | some rest' => some (Node.mk n1.words n1.nterm cs' :: rest')

/-- `treeSquash` entry (slsa.c:499-528): NULL is the empty chain,
otherwise compute `hasSibling` from the entry node and walk. -/
def treeSquash (fuel : Nat) (chain : List Node) : Option (List Node) :=
  match chain with
  | [] => some []
  | n :: rest => squashWalk fuel (!rest.isEmpty) (n :: rest)

/-- Type of the character-level date recognizers `preprocessLine` calls:
buffer and offset in, consumed length on a match. -/
def RecFn : Type := List Char → Nat → Option Nat

/-- Loop body of `preprocessLine` (slsa.c:750-777) at offset `i`,
returning the characters emitted and the advance `nproc`.  Both parser
calls are made in sequence and the second `if/else` overwrites
`tocopy`/`nproc` unconditionally, exactly as in the source: the pair `s1`
computed from the RFC3164 recognizer is dead. -/
def preprocStep (r3164 r5424 : RecFn) (buf : List Char) (i : Nat) : List Char × Nat :=
  let _s1 : Option (List Char) × Nat :=
    match r3164 buf i with
    | some n => (some ("%date-rfc3164%".data), n)
    | none => (none, 1)
  let s2 : Option (List Char) × Nat :=
    match r5424 buf i with
    | some n => (some ("%date-rfc5424%".data), n)
    | none => (none, 1)
  match s2 with
  | (some t, n) => (t, n)
  | (none, n) => ([cAt buf i], n)

/-- The `for(size_t i = 0 ; i < buflen ; )` loop of `preprocessLine`:
emit step outputs until the offset reaches the buffer length.  Every step
of the source advances by `nproc ≥ 1` when the recognizers consume at
least one character on success, so fuel `buflen` suffices; exhaustion
(which for the source would be the loop not advancing) yields the output
so far. -/
def preprocGo (r3164 r5424 : RecFn) (buf : List Char) : Nat → Nat → List Char
  | 0, _ => []
  | fuel + 1, i =>
    if i < buf.length then
      let st := preprocStep r3164 r5424 buf i
      st.1 ++ preprocGo r3164 r5424 buf fuel (i + st.2)
    else []

/-- `preprocessLine` (slsa.c:738-781), parameterized by the two date
recognizers it calls (liblognorm parsers, not under src/). -/
def preprocessLine (r3164 r5424 : RecFn) (buf : List Char) : List Char :=
  preprocGo r3164 r5424 buf (buf.length + 1) 0

/-- Month names of the RFC3164 timestamp. -/
def monthNames : List (List Char) :=
  ["Jan".data, "Feb".data, "Mar".data, "Apr".data, "May".data, "Jun".data,
   "Jul".data, "Aug".data, "Sep".data, "Oct".data, "Nov".data, "Dec".data]

/-- Modelled from the spec: `ln_parseRFC3164Date` (a liblognorm parser,
not under src/) recognizes the multi-word RFC3164 timestamp
`Mmm dd hh:mm:ss` at the given offset: a three-letter month name, a space,
a one- or two-digit day, a space, and a 24-hour time. -/
def ln_parseRFC3164Date : RecFn := fun buf i =>
  let w := buf.drop i
  if monthNames.any (fun m => w.take 3 == m) && cAt w 3 == Char.ofNat 32 then
    let dlen := ((w.drop 4).takeWhile cIsDigit).length
    if (dlen == 1 || dlen == 2) && cAt w (4 + dlen) == Char.ofNat 32 then
      match ln_parseTime24hr (w.drop (5 + dlen)) with
      | some 8 => some (5 + dlen + 8)
      | _ => none
    else none
  else none

/-- Modelled from the spec: `ln_parseRFC5424Date` (a liblognorm parser,
not under src/) recognizes the RFC5424 timestamp
`YYYY-MM-DDThh:mm:ss` at the given offset. -/
def ln_parseRFC5424Date : RecFn := fun buf i =>
  let w := buf.drop i
  if cIsDigit (cAt w 0) && cIsDigit (cAt w 1) && cIsDigit (cAt w 2) &&
     cIsDigit (cAt w 3) && cAt w 4 == Char.ofNat 45 &&
     cIsDigit (cAt w 5) && cIsDigit (cAt w 6) && cAt w 7 == Char.ofNat 45 &&
     cIsDigit (cAt w 8) && cIsDigit (cAt w 9) && cAt w 10 == Char.ofNat 84
  then
    match ln_parseTime24hr (w.drop 11) with
    | some 8 => some 19
    | _ => none
  else none

/-- `MAXLINE` (slsa.c:64), the size of the line buffer of `processFile`. -/
def MAXLINE : Nat := 32 * 1024

/-- The `fgetc` loop of `processFile` (slsa.c:791-796) with `n` buffer
slots left (the loop runs while `i < sizeof(lnbuf)-1`): the line read so
far (accumulator reversed), the rest of the stream, and whether `fgetc`
hit end of file.  Reaching the bound stops reading without consuming
further characters; a newline is consumed but not stored. -/
def readLineGo : Nat → List Char → List Char → List Char × List Char × Bool
  | 0, acc, s => (acc.reverse, s, false)
  | _ + 1, acc, [] => (acc.reverse, [], true)
  | n + 1, acc, c :: rest =>
    if c == Char.ofNat 10 then (acc.reverse, rest, false)
    else readLineGo n (c :: acc) rest

/-- One line read of `processFile` with buffer size `bound` (the source
uses `MAXLINE`); at most `bound - 1` characters are stored. -/
def readLine (bound : Nat) (s : List Char) : List Char × List Char × Bool :=
  readLineGo (bound - 1) [] s

/-- The `while(!feof(fp))` loop of `processFile` (slsa.c:788-804),
collecting the nonempty lines it reads — each such line is what the source
hands to `preprocessLine` and `treeAddLine`.  Every iteration that does
not hit end of file consumes at least one character (a newline, or
`MAXLINE - 1` characters at the bound), so fuel `|s| + 1` covers the run;
exhaustion yields the lines so far. -/
def processFileGo : Nat → List Char → List (List Char)
  | 0, _ => []
  | fuel + 1, s =>
    match readLine MAXLINE s with
    | (line, rest, hitEof) =>
      let here := if line.isEmpty then [] else [line]
      if hitEof then here else here ++ processFileGo fuel rest

/-- The sequence of lines `processFile` processes from the stream `s`. -/
def processFileLines (s : List Char) : List (List Char) :=
  processFileGo (s.length + 1) s

/-- C2 failing input, child part: a node with sole value `closed`, no
child, one terminal hit. -/
def nodeClosed : Node := Node.mk [⟨"closed".data, 1, false, false⟩] 1 []

/-- C2 failing input: a node with sole value `connection`, no sibling,
whose only child is `nodeClosed`; per the claim the pair should collapse
into one node holding `connection closed`. -/
def nodeConn : Node := Node.mk [⟨"connection".data, 1, false, false⟩] 0 [nodeClosed]

/-- C3 input: a leaf node whose value set is exactly
`a=1`, `a=22`, `a=333`, each with occurrence count 1. -/
def nodeC3 : Node :=
  Node.mk [⟨"a=1".data, 1, false, false⟩, ⟨"a=22".data, 1, false, false⟩,
           ⟨"a=333".data, 1, false, false⟩] 0 []

/-- C8 failing input: a raw line starting with an RFC3164 timestamp. -/
def bufC8 : List Char := "Oct 11 22:14:15 x".data

/-- C1 failing input: a node whose value set holds the same text twice,
each entry with occurrence count 1. -/
def nodeC1a : Node :=
  Node.mk [⟨[Char.ofNat 120], 1, false, false⟩, ⟨[Char.ofNat 120], 1, false, false⟩] 0 []

/-- C1 second failing input: values a, a, b, b, c (all occurrence count 1,
already in sorted order); the positional-gap accounting overcounts here. -/
def nodeC1b : Node :=
  Node.mk [⟨[Char.ofNat 97], 1, false, false⟩, ⟨[Char.ofNat 97], 1, false, false⟩,
           ⟨[Char.ofNat 98], 1, false, false⟩, ⟨[Char.ofNat 98], 1, false, false⟩,
           ⟨[Char.ofNat 99], 1, false, false⟩] 0 []

/-- A key-value separator of the delimiter-correction scan: `=` or `:`. -/
def isSepChar (c : Char) : Bool := c == Char.ofNat 61 || c == Char.ofNat 58

/-- A quoting or bracketing opener of the delimiter-correction scan:
double quote, apostrophe, `[`, `(` or `<`. -/
def isOpenChar (c : Char) : Bool :=
  c == Char.ofNat 34 || c == Char.ofNat 39 || c == Char.ofNat 91 ||
  c == Char.ofNat 40 || c == Char.ofNat 60

/-- C5 input line `p q`. -/
def lineA : List Char := "p q".data

/-- C5 input line `r q`. -/
def lineB : List Char := "r q".data

/-- C5 input line `r s`. -/
def lineC : List Char := "r s".data

/-- C6 input line `user bob login`. -/
def lineU1 : List Char := "user bob login".data

/-- C6 input line `user alice login`. -/
def lineU2 : List Char := "user alice login".data

/-- C6 witness chain node: the `bob` node after inserting `user bob login`,
holding the `login` child. -/
def nodeBob : Node :=
  Node.mk [⟨"bob".data, 1, false, false⟩] 0 [Node.mk [⟨"login".data, 1, false, false⟩] 1 []]

/-- C6 expected tree: one `user` parent, one slot holding `bob` and
`alice`, one shared `login` child with two terminal hits. -/
def userTreeExpected : Node :=
  Node.mk [⟨"[ROOT]".data, 1, false, false⟩] 0
    [Node.mk [⟨"user".data, 2, false, false⟩] 0
      [Node.mk [⟨"bob".data, 1, false, false⟩, ⟨"alice".data, 1, false, false⟩] 0
        [Node.mk [⟨"login".data, 2, false, false⟩] 2 []]]]

/-- C7 input token: an IPv4 address with a mask. -/
def lineIp : List Char := "10.0.0.1/24".data

/-- C1: deduplication does not preserve the sum of occurrence counts.  On
`nodeC1a` (sum 2) the final run of duplicates is never flushed into the
survivor, leaving sum 1; on `nodeC1b` (sum 5) the survivor of the second
run receives the positional gap 2 although only one duplicate was
squashed, giving sum 6. -/
theorem thmC1_squash_changes_occurrence_sum :
    sumOccurs (squashDuplicateValues nodeC1a).words = 1 ∧ sumOccurs nodeC1a.words = 2 ∧
    sumOccurs (squashDuplicateValues nodeC1b).words = 6 ∧ sumOccurs nodeC1b.words = 5 := by
  refine ⟨rfl, rfl, rfl, rfl⟩

/-- C2: the refinement sweep leaves the `connection`/`closed` pair
unchanged instead of collapsing it.  The collapse branch of `treeSquash`
tests `node->nwords == 0 && node->child->nwords == 0`, which a live node
(value set never empty) can never satisfy, although the pair meets every
condition of the claim: parent and child each hold exactly one value,
there is no sibling, and neither literal starts with `%`. -/
theorem thmC2_treeSquash_does_not_collapse :
    treeSquash 5 [nodeConn] = some [nodeConn] ∧
    nodeConn.words.length = 1 ∧ nodeConn.children = [nodeClosed] ∧
    nodeClosed.words.length = 1 ∧ nodeClosed.children = [] ∧
    cAt (nodeConn.words.headD wiDefault).word 0 ≠ Char.ofNat 37 ∧
    cAt (nodeClosed.words.headD wiDefault).word 0 ≠ Char.ofNat 37 := by
  refine ⟨rfl, rfl, rfl, rfl, rfl, by decide, by decide⟩

/-- C3: factoring `{a=1, a=22, a=333}` yields prefix `a=`, no suffix node,
and the residuals re-detected as `%posint%` and deduplicated to a single
value — but with occurrence count 1, not 3: the merge loop of
`squashDuplicateValues` never flushes the final run of duplicates into
the survivor. -/
theorem thmC3_factoring_keeps_occurs_one :
    checkPrefixes nodeC3 =
      some (Node.mk [⟨"a=".data, 1, true, false⟩] 0
        [Node.mk [⟨pctPosint, 1, true, true⟩] 0 []]) := by
  rfl

/-- C8: when the RFC3164 recognizer fully matches at a position and the
RFC5424 recognizer does not, `preprocessLine` copies one raw character and
advances by one — the match is discarded, because the second `if/else` of
the loop body overwrites `tocopy`/`nproc` unconditionally.  The RFC3164
hypothesis is deliberately unused by the proof: no RFC3164 outcome can
influence the step, which is exactly the defect. -/
theorem thmC8_rfc3164_match_discarded (r3164 r5424 : RecFn) (buf : List Char) (i n : Nat)
    (h1 : r3164 buf i = some n) (h2 : r5424 buf i = none) :
    preprocStep r3164 r5424 buf i = ([cAt buf i], 1) := by
  clear h1
  simp [preprocStep, h2]

/-- C8 witness: on a line starting with an RFC3164 timestamp the step at
offset 0 copies the raw `O`, and the whole preprocessed line comes out
unchanged, with no `%date-rfc3164%` replacement. -/
theorem witC8_rfc3164_discarded_concrete :
    ln_parseRFC3164Date bufC8 0 = some 15 ∧ ln_parseRFC5424Date bufC8 0 = none ∧
    preprocStep ln_parseRFC3164Date ln_parseRFC5424Date bufC8 0 = ([cAt bufC8 0], 1) ∧
    preprocessLine ln_parseRFC3164Date ln_parseRFC5424Date bufC8 = bufC8 :=
  ⟨by decide, by decide,
   thmC8_rfc3164_match_discarded ln_parseRFC3164Date ln_parseRFC5424Date bufC8 0 15
     (by decide) (by decide), rfl⟩

/-- Helper for C10: the suffix-installation phase of `disjoinCommon` is
undefined (models the NULL dereference of
`newnode->child->parent = newnode`) exactly when it runs (nonzero suffix)
on a childless node. -/
theorem disjoinSuffixStage_none_iff (n1 : Node) (s : Nat) :
    disjoinSuffixStage n1 s = none ↔ 0 < s ∧ n1.children = [] := by
  by_cases hs : 0 < s
  · cases h : n1.children with
    | nil => simp [disjoinSuffixStage, hs, h]
    | cons c cr => simp [disjoinSuffixStage, hs, h]
  · simp [disjoinSuffixStage, hs]

/-- C10: for a node with a non-empty value set, `disjoinCommon` is
undefined exactly when the suffix length is nonzero and the node has no
child — the suffix branch dereferences the (post-prefix) node's child
unconditionally to set its parent back-reference, so `child ≠ none` is an
implicit precondition of suffix factoring. -/
theorem thmC10_disjoin_requires_child (n : Node) (p s : Nat) (h : n.words ≠ []) :
    disjoinCommon n p s = none ↔ 0 < s ∧ n.children = [] := by
  obtain ⟨ws, nt, cs⟩ := n
  cases ws with
  | nil => exact absurd rfl h
  | cons w0 wr =>
    by_cases hp : 0 < p
    · simp only [disjoinCommon, Node.words, Node.children, Node.nterm]
      rw [if_pos hp]
      split
      · rename_i heq
        have hx := (disjoinSuffixStage_none_iff _ s).mp heq
        simp only [Node.children] at hx
        simp [hx.1, hx.2]
      · rename_i i2 heq
        have hno : ¬(0 < s ∧ cs = []) := by
          intro hcon
          have h2 := (disjoinSuffixStage_none_iff
            (Node.mk (List.map (stripPref p) (w0 :: wr)) 0 cs) s).mpr
            (by simpa [Node.children] using hcon)
          rw [heq] at h2
          exact Option.noConfusion h2
        simp [hno]
    · simp only [disjoinCommon, Node.words, Node.children, Node.nterm]
      rw [if_neg hp]
      split
      · rename_i heq
        have hx := (disjoinSuffixStage_none_iff _ s).mp heq
        simp only [Node.children] at hx
        simp [hx.1, hx.2]
      · rename_i i2 heq
        have hno : ¬(0 < s ∧ cs = []) := by
          intro hcon
          have h2 := (disjoinSuffixStage_none_iff (Node.mk (w0 :: wr) nt cs) s).mpr
            (by simpa [Node.children] using hcon)
          rw [heq] at h2
          exact Option.noConfusion h2
        simp [hno]

/-- C10 witness: a childless node with two values sharing the one-character
common suffix `b` (prefix length 0, suffix length 1): suffix factoring hits
the absent child. -/
theorem witC10_disjoin_childless :
    (Node.mk [⟨"ab".data, 1, false, false⟩, ⟨"bb".data, 1, false, false⟩] 0 []).words ≠ [] ∧
    (disjoinCommon (Node.mk [⟨"ab".data, 1, false, false⟩, ⟨"bb".data, 1, false, false⟩] 0 []) 0 1
        = none ↔ 0 < 1 ∧
      (Node.mk [⟨"ab".data, 1, false, false⟩, ⟨"bb".data, 1, false, false⟩] 0 []).children = []) :=
  ⟨by decide, thmC10_disjoin_requires_child _ 0 1 (by decide)⟩

/-- Helper for C4: over a range with no separator and no opening
delimiter, the backward scan changes nothing. -/
theorem scanDelims_quiet (base : List Char) (lenBase : Nat) :
    ∀ n, (∀ j, j < n → isSepChar (cAt base j) = false) →
      (∀ j, j < n → isOpenChar (cAt base j) = false) →
      ∀ p s, scanDelims base lenBase n p s = (p, s) := by
  intro n
  induction n with
  | zero => intro _ _ p s; rfl
  | succ m ih =>
    intro hs ho p s
    have ho2 := ho m (by omega)
    simp only [isOpenChar, Bool.or_eq_false_iff] at ho2
    obtain ⟨⟨⟨⟨h34, h39⟩, h91⟩, h40⟩, h60⟩ := ho2
    have hsm := hs m (by omega)
    simp only [isSepChar, Bool.or_eq_false_iff] at hsm
    have hsm2 : (cAt base m == Char.ofNat 61 || cAt base m == Char.ofNat 58) = false := by
      simp [hsm.1, hsm.2]
    have hstep : scanDelims base lenBase (m + 1) p s = scanDelims base lenBase m p s := by
      simp [scanDelims, h34, h39, h91, h40, h60, hsm2]
    rw [hstep]
    exact ih (fun j hj => hs j (by omega)) (fun j hj => ho j (by omega)) p s

/-- C4 counterexample: for the base word `a=b=1` with tentative prefix
length 4 and suffix length 0, the first separator found scanning backward
sits at index 3, so the claim says the scan stops with prefix length
3 + 1 = 4; the code instead continues, re-pins at the `=` of index 1, and
yields prefix length 2. -/
theorem counterexC4_scan_does_not_stop :
    isSepChar (cAt ("a=b=1".data) 3) = true ∧
    scanDelims ("a=b=1".data) 5 4 4 0 = (2, 0) ∧ (2 : Nat) ≠ 3 + 1 := by
  refine ⟨by decide, rfl, by decide⟩

/-- C4 amended: every `=` or `:` met by the backward scan re-pins the
prefix length to end immediately after it, without touching the suffix
length, and the scan continues; hence, when no quoting or bracketing
character occurs in the scanned range, the scan ends with the prefix
pinned after the leftmost separator of the range. -/
theorem thmC4_scan_pins_leftmost_sep (base : List Char) (lenBase jmin : Nat)
    (hsep : isSepChar (cAt base jmin) = true)
    (hmin : ∀ j, j < jmin → isSepChar (cAt base j) = false) :
    ∀ n, jmin < n → (∀ j, j < n → isOpenChar (cAt base j) = false) →
      ∀ p s, scanDelims base lenBase n p s = (jmin + 1, s) := by
  intro n
  induction n with
  | zero => intro hj; omega
  | succ m ih =>
    intro hj hnob p s
    have ho2 := hnob m (by omega)
    simp only [isOpenChar, Bool.or_eq_false_iff] at ho2
    obtain ⟨⟨⟨⟨h34, h39⟩, h91⟩, h40⟩, h60⟩ := ho2
    by_cases hm : jmin = m
    · have hsep2 : (cAt base m == Char.ofNat 61 || cAt base m == Char.ofNat 58) = true := by
        rw [← hm]; simpa [isSepChar] using hsep
      have hstep : scanDelims base lenBase (m + 1) p s = scanDelims base lenBase m (m + 1) s := by
        simp [scanDelims, h34, h39, h91, h40, h60, hsep2]
      rw [hstep, ← hm]
      exact scanDelims_quiet base lenBase jmin hmin
        (fun j hj2 => hnob j (by omega)) (jmin + 1) s
    · have hlt : jmin < m := by omega
      cases hsm : isSepChar (cAt base m) with
      | true =>
        have hsm2 : (cAt base m == Char.ofNat 61 || cAt base m == Char.ofNat 58) = true := by
          simpa [isSepChar] using hsm
        have hstep : scanDelims base lenBase (m + 1) p s = scanDelims base lenBase m (m + 1) s := by
          simp [scanDelims, h34, h39, h91, h40, h60, hsm2]
        rw [hstep]
        exact ih hlt (fun j hj2 => hnob j (by omega)) (m + 1) s
      | false =>
        have hsm2 : (cAt base m == Char.ofNat 61 || cAt base m == Char.ofNat 58) = false := by
          simpa [isSepChar] using hsm
        have hstep : scanDelims base lenBase (m + 1) p s = scanDelims base lenBase m p s := by
          simp [scanDelims, h34, h39, h91, h40, h60, hsm2]
        rw [hstep]
        exact ih hlt (fun j hj2 => hnob j (by omega)) p s

/-- C4 witness: on `a=b=1` with tentative prefix 4 and suffix 0, the
leftmost separator sits at index 1 and the scan ends with prefix length 2
and suffix length 0. -/
theorem witC4_scan_leftmost_concrete :
    isSepChar (cAt ("a=b=1".data) 1) = true ∧ 1 < 4 ∧
    (∀ j, j < 4 → isOpenChar (cAt ("a=b=1".data) j) = false) ∧
    (∀ j, j < 1 → isSepChar (cAt ("a=b=1".data) j) = false) ∧
    scanDelims ("a=b=1".data) 5 4 4 0 = (1 + 1, 0) :=
  ⟨by decide, by decide, by decide, by decide,
   thmC4_scan_pins_leftmost_sep ("a=b=1".data) 5 1 (by decide) (by decide) 4
     (by decide) (by decide) 4 0⟩

/-- Helper: a successful `findSplit` decomposes the chain. -/
theorem findSplit_eq (p : Node → Bool) :
    ∀ (l pre post : List Node) (t : Node),
      findSplit p l = some (pre, t, post) → l = pre ++ t :: post := by
  intro l
  induction l with
  | nil => intro pre post t h; exact absurd h (by simp [findSplit])
  | cons c rest ih =>
    intro pre post t h
    rw [findSplit] at h
    by_cases hc : p c
    · rw [if_pos hc] at h
      simp only [Option.some.injEq, Prod.mk.injEq] at h
      obtain ⟨h1, h2, h3⟩ := h
      rw [← h1, ← h2, ← h3]
      rfl
    · rw [if_neg hc] at h
      cases hf : findSplit p rest with
      | none => rw [hf] at h; exact absurd h (by simp)
      | some x =>
        obtain ⟨pre1, t1, post1⟩ := x
        rw [hf] at h
        simp only [Option.some.injEq, Prod.mk.injEq] at h
        obtain ⟨h1, h2, h3⟩ := h
        rw [← h1, ← h2, ← h3]
        simpa using congrArg (c :: ·) (ih pre1 post1 t1 hf)

/-- Helper: `findSplit` misses a chain rejected throughout. -/
theorem findSplit_none (p : Node → Bool) :
    ∀ l, (∀ c ∈ l, p c = false) → findSplit p l = none := by
  intro l
  induction l with
  | nil => intro _; rfl
  | cons c rest ih =>
    intro hall
    rw [findSplit, if_neg (by simp [hall c (by simp)]), ih (fun d hd => hall d (by simp [hd]))]

/-- Helper: `findSplit` returns the first accepted node. -/
theorem findSplit_first (p : Node → Bool) :
    ∀ (pre : List Node) (n : Node) (post : List Node),
      (∀ c ∈ pre, p c = false) → p n = true →
      findSplit p (pre ++ n :: post) = some (pre, n, post) := by
  intro pre
  induction pre with
  | nil => intro n post _ hn; simp [findSplit, hn]
  | cons c rest ih =>
    intro n post hall hn
    rw [List.cons_append, findSplit, if_neg (by simp [hall c (by simp)]),
      ih n post (fun d hd => hall d (by simp [hd])) hn]

/-- Helper: bumping an occurrence counter leaves terminal totals alone. -/
theorem bumpWord_nterm (c : Node) (w : List Char) : totalNterm (bumpWord c w) = totalNterm c := by
  obtain ⟨ws, nt, cs⟩ := c
  simp [bumpWord, totalNterm, Node.words, Node.nterm, Node.children]

/-- Helper: adding a value leaves terminal totals alone. -/
theorem addWordNode_nterm (c : Node) (wi : Wordinfo) :
    totalNterm (addWordNode c wi) = totalNterm c := by
  obtain ⟨ws, nt, cs⟩ := c
  simp [addWordNode, totalNterm, Node.words, Node.nterm, Node.children]

/-- Helper: a fresh node has terminal total zero. -/
theorem newNode_nterm (wi : Wordinfo) : totalNterm (newNode wi) = 0 := by
  simp [newNode, totalNterm, totalNtermList]

/-- Helper: terminal totals add over concatenated chains. -/
theorem totalNtermList_append :
    ∀ l1 l2 : List Node, totalNtermList (l1 ++ l2) = totalNtermList l1 + totalNtermList l2 := by
  intro l1 l2
  induction l1 with
  | nil => simp [totalNtermList]
  | cons n rest ih => simp [totalNtermList, ih]; omega

/-- Helper: one `treeAddToLevel` step preserves the terminal total of the
child chain. -/
theorem treeAddToLevel_sum (children : List Node) (wi : Wordinfo) (la : Option Wordinfo)
    (pre post : List Node) (t : Node) (h : treeAddToLevel children wi la = (pre, t, post)) :
    totalNtermList pre + totalNterm t + totalNtermList post = totalNtermList children := by
  rw [treeAddToLevel.eq_def] at h
  split at h
  · rename_i pre1 t1 post1 heq
    simp only [Prod.mk.injEq] at h
    obtain ⟨h2, h3, h4⟩ := h
    rw [← h2, ← h3, ← h4, findSplit_eq _ children pre1 post1 t1 heq, totalNtermList_append,
      bumpWord_nterm]
    simp [totalNtermList]
    omega
  · rename_i heq1
    split at h
    · rename_i lawi
      split at h
      · rename_i pre1 t1 post1 heq2
        simp only [Prod.mk.injEq] at h
        obtain ⟨h2, h3, h4⟩ := h
        rw [← h2, ← h3, ← h4, findSplit_eq _ children pre1 post1 t1 heq2, totalNtermList_append,
          addWordNode_nterm]
        simp [totalNtermList]
        omega
      · rename_i heq2
        simp only [Prod.mk.injEq] at h
        obtain ⟨h2, h3, h4⟩ := h
        rw [← h2, ← h3, ← h4, newNode_nterm]
        simp [totalNtermList]
    · simp only [Prod.mk.injEq] at h
      obtain ⟨h2, h3, h4⟩ := h
      rw [← h2, ← h3, ← h4, newNode_nterm]
      simp [totalNtermList]

/-- Helper: inserting one token sequence raises the terminal total of the
tree by exactly one, wherever the insertion lands. -/
theorem insertTokens_sum :
    ∀ (ts : List Wordinfo) (node : Node), totalNterm (insertTokens node ts) = totalNterm node + 1 := by
  intro ts
  induction ts with
  | nil =>
    intro node
    obtain ⟨ws, nt, cs⟩ := node
    simp [insertTokens, totalNterm, Node.words, Node.nterm, Node.children]
    omega
  | cons wi rest ih =>
    intro node
    obtain ⟨ws, nt, cs⟩ := node
    rw [insertTokens]
    cases h : treeAddToLevel (Node.mk ws nt cs).children wi rest.head? with
    | mk pre x =>
      obtain ⟨t, post⟩ := x
      have hsum := treeAddToLevel_sum _ wi rest.head? pre post t h
      simp only [totalNterm, Node.words, Node.nterm, Node.children, totalNtermList_append,
        totalNtermList, ih t]
      simp only [Node.children] at hsum
      omega

/-- Helper: the terminal total of a built tree is the number of lines. -/
theorem buildTree_sum :
    ∀ (ls : List (List Char)) (t : Node),
      totalNterm (List.foldl treeAddLine t ls) = totalNterm t + ls.length := by
  intro ls
  induction ls with
  | nil => intro t; simp
  | cons l rest ih =>
    intro t
    rw [List.foldl_cons, ih, treeAddLine, insertTokens_sum]
    simp
    omega

/-- C5 counterexample: the same three lines inserted in two orders give
trees with 4 and 6 nodes — not identical up to sibling ordering, since any
sibling reordering preserves the node count.  In the first order the
lookahead merge folds `p` and `r` into one slot; in the reverse order the
`r s` branch exists first, the lookahead test inspects only the first
child `s`, and two disjoint branches arise. -/
theorem counterexC5_order_changes_structure :
    countNodes (buildTree [lineA, lineB, lineC]) = 4 ∧
    countNodes (buildTree [lineC, lineB, lineA]) = 6 ∧
    List.Perm [lineA, lineB, lineC] [lineC, lineB, lineA] := by
  refine ⟨rfl, rfl, by decide⟩

/-- C5 amended: inserting the same multiset of lines in different orders
can change the tree beyond sibling ordering; what every order preserves is
the total of terminal counts over the tree, which equals the number of
lines inserted. -/
theorem thmC5_perm_preserves_terminal_total (l1 l2 : List (List Char)) (h : List.Perm l1 l2) :
    totalNterm (buildTree l1) = totalNterm (buildTree l2) := by
  rw [buildTree, buildTree, buildTree_sum, buildTree_sum, h.length_eq]

/-- C5 witness: the two orders of the counterexample agree on the terminal
total. -/
theorem witC5_perm_concrete :
    List.Perm [lineA, lineB, lineC] [lineC, lineB, lineA] ∧
    totalNterm (buildTree [lineA, lineB, lineC]) =
      totalNterm (buildTree [lineC, lineB, lineA]) :=
  ⟨by decide, thmC5_perm_preserves_terminal_total _ _ (by decide)⟩

/-- C6: when the token matches no value anywhere in the chain, a lookahead
is known, and `n` is the first chain node whose child's first value equals
the lookahead text, `treeAddToLevel` appends the token to `n`'s value set
(occurrence count reset to 1 by `logrec_addWord`) and descends into `n`
instead of creating a new branch. -/
theorem thmC6_lookahead_appends (pre post : List Node) (n : Node) (wi la : Wordinfo)
    (h1 : ∀ c ∈ pre ++ n :: post, logrec_hasWord c wi.word = none)
    (h2 : ∀ c ∈ pre, lookaheadHit la c = false)
    (h3 : lookaheadHit la n = true) :
    treeAddToLevel (pre ++ n :: post) wi (some la) = (pre, addWordNode n wi, post) := by
  have hf1 : findSplit (fun c => (logrec_hasWord c wi.word).isSome) (pre ++ n :: post) = none :=
    findSplit_none _ _ (fun c hc => by rw [h1 c hc]; rfl)
  have hf2 := findSplit_first (lookaheadHit la) pre n post h2 h3
  rw [treeAddToLevel.eq_def, hf1]
  simp only [hf2]

/-- C6 witness: inserting `alice` with lookahead `login` into the chain
holding only the `bob` node appends `alice` to that node, and the two
lines `user bob login` and `user alice login` build the shared
`user`/`{bob, alice}`/`login` tree of the claim. -/
theorem witC6_lookahead_concrete :
    (∀ c ∈ [nodeBob], logrec_hasWord c ("alice".data) = none) ∧
    lookaheadHit ⟨"login".data, 1, false, false⟩ nodeBob = true ∧
    treeAddToLevel [nodeBob] ⟨"alice".data, 1, false, false⟩
        (some ⟨"login".data, 1, false, false⟩) =
      ([], addWordNode nodeBob ⟨"alice".data, 1, false, false⟩, []) ∧
    buildTree [lineU1, lineU2] = userTreeExpected :=
  ⟨by decide, by decide,
   thmC6_lookahead_appends [] [] nodeBob ⟨"alice".data, 1, false, false⟩
     ⟨"login".data, 1, false, false⟩ (by decide) (by decide) (by decide), rfl⟩


/-- C7: a raw token shaped ipv4 `/` posint — IPv4 recognized over a proper
prefix, a `/` at the boundary, the rest a full positive integer, and none
of the earlier recognizers taking the whole token — is rewritten to
`%ipv4%` while `%posint%` and then `/` are pushed onto the pending stack,
so the three tokens reach tree insertion in the order `%ipv4%`, `/`,
`%posint%`. -/
theorem thmC7_stacked_ipv4 (w : List Char) (hne : w ≠ [])
    (hns : ∀ c ∈ w, cIsSpace c = false)
    (hpct : (cAt w 0 == Char.ofNat 37) = false)
    (h1 : fullMatch (syntax_posint w) w.length = false)
    (h2 : fullMatch (ln_parseTime24hr w) w.length = false)
    (h3 : fullMatch (ln_parseDuration w) w.length = false)
    (n : Nat) (h4 : syntax_ipv4 w = some n) (h5 : (n == w.length) = false)
    (h6 : (cAt w n == Char.ofNat 47) = true)
    (m : Nat) (h7 : syntax_posint (w.drop (n + 1)) = some m)
    (h8 : (n + 1 + m == w.length) = true) :
    getWord ⟨[], w⟩ = (some ⟨pctIpv4, 1, true, true⟩, ⟨[wiSlash, wiPosintStacked], []⟩) ∧
    getWord ⟨[wiSlash, wiPosintStacked], ([] : List Char)⟩ =
      (some wiSlash, ⟨[wiPosintStacked], []⟩) ∧
    getWord ⟨[wiPosintStacked], ([] : List Char)⟩ = (some wiPosintStacked, ⟨[], []⟩) ∧
    getWord ⟨([] : List Wordinfo), ([] : List Char)⟩ = (none, ⟨[], []⟩) := by
  refine ⟨?_, rfl, rfl, rfl⟩
  have hdet : wordDetectSyntax ⟨w, 1, false, false⟩ w.length true =
      (⟨pctIpv4, 1, true, true⟩, [wiPosintStacked, wiSlash]) := by
    rw [wordDetectSyntax]
    simp only [h1, h2, h3, h4, h5, h6, h7, h8, Bool.false_eq_true, if_false, Bool.true_and,
      if_true]
  cases w with
  | nil => exact absurd rfl hne
  | cons c cs =>
    have hsp : cIsSpace c = false := hns c (by simp)
    have htw1 : skipSpacesLen (c :: cs) = 0 := by
      simp [skipSpacesLen, List.takeWhile_cons, hsp]
    have htw2 : (c :: cs).takeWhile (fun x => !cIsSpace x) = c :: cs :=
      List.takeWhile_eq_self_iff.mpr (fun d hd => by simp [hns d hd])
    have hwl : wordLenAt (c :: cs) = (c :: cs).length := by
      simp [wordLenAt, htw1, htw2]
    rw [getWord]
    simp only [htw1, hwl, List.drop_zero, List.take_length, List.drop_length]
    have hb0 : ((c :: cs : List Char) == []) = false := rfl
    have hb1 : ((c :: cs).length == 0) = false := by simp
    simp only [hb0, hb1, Bool.false_eq_true, if_false, hpct, hdet]
    rfl

/-- C7 witness: on the token `10.0.0.1/24` the IPv4 recognizer consumes 8
characters, the mask is the full positive integer `24`, and the token
stream delivered to tree insertion is `%ipv4%`, `/`, `%posint%`. -/
theorem witC7_stacked_concrete :
    syntax_ipv4 lineIp = some 8 ∧ (8 == lineIp.length) = false ∧
    syntax_posint (lineIp.drop 9) = some 2 ∧
    (getWord ⟨[], lineIp⟩ = (some ⟨pctIpv4, 1, true, true⟩, ⟨[wiSlash, wiPosintStacked], []⟩) ∧
     getWord ⟨[wiSlash, wiPosintStacked], ([] : List Char)⟩ =
       (some wiSlash, ⟨[wiPosintStacked], []⟩) ∧
     getWord ⟨[wiPosintStacked], ([] : List Char)⟩ = (some wiPosintStacked, ⟨[], []⟩) ∧
     getWord ⟨([] : List Wordinfo), ([] : List Char)⟩ = (none, ⟨[], []⟩)) ∧
    tokenize ⟨[], lineIp⟩ = [⟨pctIpv4, 1, true, true⟩, wiSlash, wiPosintStacked] :=
  ⟨by decide, by decide, by decide,
   thmC7_stacked_ipv4 lineIp (by decide) (by decide) (by decide) (by decide) (by decide)
     (by decide) 8 (by decide) (by decide) (by decide) 2 (by decide) (by decide), rfl⟩


/-- Helper for C9: while no newline appears and the buffer bound is not
reached, the read loop accumulates the characters it consumes. -/
theorem readLineGo_take :
    ∀ (n : Nat) (acc s : List Char), n ≤ s.length →
      (∀ c ∈ s.take n, (c == Char.ofNat 10) = false) →
      readLineGo n acc s = (acc.reverse ++ s.take n, s.drop n, false) := by
  intro n
  induction n with
  | zero => intro acc s _ _; simp [readLineGo]
  | succ k ih =>
    intro acc s hlen hnl
    cases s with
    | nil => simp at hlen
    | cons c rest =>
      have hc : (c == Char.ofNat 10) = false := hnl c (by simp [List.take_succ_cons])
      rw [readLineGo]
      simp only [hc, Bool.false_eq_true, if_false]
      rw [ih (c :: acc) rest (by simpa using hlen)
        (fun d hd => hnl d (by simp [List.take_succ_cons, hd]))]
      simp [List.take_succ_cons]

/-- Helper for C9: a newline-free stream shorter than the remaining bound
is consumed whole, with the end-of-file flag set. -/
theorem readLineGo_eof :
    ∀ (s : List Char) (acc : List Char) (n : Nat), s.length < n →
      (∀ c ∈ s, (c == Char.ofNat 10) = false) →
      readLineGo n acc s = (acc.reverse ++ s, [], true) := by
  intro s
  induction s with
  | nil =>
    intro acc n hlen _
    cases n with
    | zero => simp at hlen
    | succ k => simp [readLineGo]
  | cons c rest ih =>
    intro acc n hlen hnl
    cases n with
    | zero => simp at hlen
    | succ k =>
      have hc : (c == Char.ofNat 10) = false := hnl c (by simp)
      rw [readLineGo]
      simp only [hc, Bool.false_eq_true, if_false]
      rw [ih (c :: acc) k (by simpa using hlen) (fun d hd => hnl d (by simp [hd]))]
      simp

/-- Helper for C9: one iteration of the `processFile` loop. -/
theorem processFileGo_step (fuel : Nat) (s line rest : List Char) (he : Bool)
    (h : readLine MAXLINE s = (line, rest, he)) :
    processFileGo (fuel + 1) s =
      (if line.isEmpty then [] else [line]) ++ (if he then [] else processFileGo fuel rest) := by
  rw [processFileGo, h]
  cases he
  · simp
  · simp

/-- C9 counterexample: a stream of 32768 `a` and no newline.  The claim
says the characters beyond the bound are dropped — the result would be the
single line of the first 32767 characters.  Instead the loop leaves the
surplus `a` in the stream and the next read consumes it as a second,
one-character line. -/
theorem counterexC9_excess_becomes_next_line :
    processFileLines (List.replicate 32768 (Char.ofNat 97)) =
      [List.replicate 32767 (Char.ofNat 97), [Char.ofNat 97]] := by
  have hnl : ∀ c ∈ (List.replicate 32768 (Char.ofNat 97)).take 32767,
      (c == Char.ofNat 10) = false := by
    intro c hc
    rw [List.eq_of_mem_replicate (List.mem_of_mem_take hc)]
    decide
  have h1 : readLine MAXLINE (List.replicate 32768 (Char.ofNat 97)) =
      (List.replicate 32767 (Char.ofNat 97), List.replicate 1 (Char.ofNat 97), false) := by
    rw [readLine, show MAXLINE - 1 = 32767 from rfl,
      readLineGo_take 32767 [] _ (by rw [List.length_replicate]; norm_num) hnl]
    rw [List.take_replicate, List.drop_replicate,
      show min 32767 32768 = 32767 from rfl, show 32768 - 32767 = 1 from rfl]
    rfl
  have h2 : readLine MAXLINE (List.replicate 1 (Char.ofNat 97)) =
      ([Char.ofNat 97], [], true) := by
    rw [readLine, readLineGo_eof _ _ _ (by rw [List.length_replicate]; norm_num [MAXLINE])
      (by decide)]
    rfl
  have hne1 : (List.replicate 32767 (Char.ofNat 97)).isEmpty = false := by
    rw [show (32767 : Nat) = 32766 + 1 from rfl, List.replicate_succ]
    rfl
  rw [processFileLines, List.length_replicate,
    show (32768 + 1 : Nat) = 32767 + 1 + 1 from rfl,
    processFileGo_step (32767 + 1) _ _ _ _ h1,
    processFileGo_step 32767 _ _ _ _ h2, hne1]
  rfl

/-- C9 amended: an over-long line is not dropped beyond the bound; the
read stops after `bound - 1` characters and leaves the excess in the
stream, where the next line read consumes it. -/
theorem thmC9_excess_stays_in_stream (bound : Nat) (s : List Char)
    (hlen : bound - 1 ≤ s.length)
    (hnl : ∀ c ∈ s.take (bound - 1), (c == Char.ofNat 10) = false) :
    readLine bound s = (s.take (bound - 1), s.drop (bound - 1), false) := by
  rw [readLine, readLineGo_take (bound - 1) [] s hlen hnl]
  simp

/-- C9 witness: with bound 4 the stream `abcdef` is read as `abc`, and
`def` stays in the stream. -/
theorem witC9_readline_concrete :
    (4 - 1 ≤ ("abcdef".data).length) ∧
    (∀ c ∈ ("abcdef".data).take (4 - 1), (c == Char.ofNat 10) = false) ∧
    readLine 4 ("abcdef".data) =
      (("abcdef".data).take (4 - 1), ("abcdef".data).drop (4 - 1), false) :=
  ⟨by decide, by decide, thmC9_excess_stays_in_stream 4 ("abcdef".data) (by decide) (by decide)⟩
